import Mathlib

/-!
Verification of the `microscopeimagequality` core numeric logic
(`src/quality/miq.py`): the ranked probability score, the loss-selection
switch `add_loss`, and the `miq_model` model-id dispatch.

Tensors along the class dimension are embedded as `List ℚ`; a batch of class
vectors (a 2-D tensor with `dim = 1` the class axis) as `List (List ℚ)`.
A raised `ValueError` is embedded as `Except.error`.
-/

set_option maxHeartbeats 1000000

namespace Miq

/-- Inclusive cumulative sum of a vector: embedding of `tf.cumsum` along the
class dimension (miq.py lines 190-191). -/
def cumsum : List ℚ → List ℚ
  | [] => []
  | x :: xs => x :: (cumsum xs).map (fun y => x + y)

/-- Ranked probability score of a single prediction/target vector along the
class dimension: the elementwise squared difference of the two cumulative
sums, summed over the class dimension (miq.py lines 190-199). -/
def rpsVec (predictions targets : List ℚ) : ℚ :=
  (List.zipWith (fun a b => (a - b) ^ 2) (cumsum predictions) (cumsum targets)).sum

/-- Embedding of `ranked_probability_score` (miq.py lines 136-201) on a batch
of class vectors.  Line 183 checks shape compatibility and raises `ValueError`
otherwise (modelled as `Except.error`); for equal shapes, `tf.cumsum`,
the squared difference and `tf.reduce_sum` along the class dimension act
independently on each batch row, giving one scalar per row. -/
def ranked_probability_score (predictions targets : List (List ℚ)) :
    Except String (List ℚ) :=
  if predictions.map List.length = targets.map List.length then
    Except.ok (List.zipWith rpsVec predictions targets)
  else
    Except.error "predictions and targets must have compatible shapes"

/-- A one-hot vector over `K` ranked classes, hot at index `i`. -/
def oneHot (K i : ℕ) : List ℚ :=
  (List.range K).map (fun k => if k = i then 1 else 0)

/-- A valid probability distribution: non-negative entries summing to 1. -/
def IsDistrib (p : List ℚ) : Prop :=
  (∀ x ∈ p, 0 ≤ x) ∧ p.sum = 1

instance (p : List ℚ) : Decidable (IsDistrib p) := by
  unfold IsDistrib
  infer_instance

/-- The expected ranked probability score of prediction `p` when the true
class is drawn from the distribution `q` over `q.length` ranked classes:
`∑ i, q_i * RPS(p, onehot_i)`. -/
def expectedRPS (p q : List ℚ) : ℚ :=
  ∑ i ∈ Finset.range q.length, q.getD i 0 * rpsVec p (oneHot q.length i)

/-- Integer-typed one-hot targets cast elementwise to the predictions'
(exact rational) precision, embedding the `tf.cast` of miq.py line 188. -/
def castTargets (targets : List (List ℤ)) : List (List ℚ) :=
  targets.map (List.map (Int.cast : ℤ → ℚ))

/-- `ranked_probability_score` as invoked with floating-point predictions and
integer targets (miq.py lines 180-199): the shape check of line 183 sees the
original integer tensor, lines 186-188 then cast the targets to the
predictions' dtype, and the computation proceeds on the cast values. -/
def ranked_probability_score_intTargets (predictions : List (List ℚ))
    (targets : List (List ℤ)) : Except String (List ℚ) :=
  if predictions.map List.length = targets.map List.length then
    Except.ok (List.zipWith rpsVec predictions (castTargets targets))
  else
    Except.error "predictions and targets must have compatible shapes"

/-- `tf.nn.softmax` along the class dimension (miq.py line 41), with the
exponential supplied as a parameter since the embedding is over exact
rationals: each entry becomes `exp x / Σ exp`. -/
def softmax (e : ℚ → ℚ) (v : List ℚ) : List ℚ :=
  (v.map e).map (fun x => x / (v.map e).sum)

/-- Per-row softmax cross-entropy `-Σ labels * log(softmax(logits))`, the
loss registered by `slim.losses.softmax_cross_entropy` (miq.py line 38),
with the exponential and logarithm supplied as parameters. -/
def softmax_cross_entropy (e lg : ℚ → ℚ) (logits labels : List ℚ) : ℚ :=
  -(List.zipWith (fun l s => l * lg s) labels (softmax e logits)).sum

/-- Arithmetic mean of a list, embedding `tf.reduce_mean` (miq.py line 42). -/
def mean (l : List ℚ) : ℚ := l.sum / l.length

/-- Embedding of `add_loss` (miq.py lines 27-42): the scalar registered in
the framework's loss collection.  With `use_rank_loss = false`, the mean
softmax cross-entropy (line 38); with `use_rank_loss = true`, the mean over
the batch of `ranked_probability_score(softmax(logits), one_hot_labels,
dim=1)` (lines 40-42). -/
def add_loss (e lg : ℚ → ℚ) (logits one_hot_labels : List (List ℚ))
    (use_rank_loss : Bool) : Except String ℚ :=
  if ¬use_rank_loss then
    Except.ok (mean (List.zipWith (softmax_cross_entropy e lg) logits one_hot_labels))
  else
    (ranked_probability_score (logits.map (softmax e)) one_hot_labels).map mean

/-- Shape of a 4-D image tensor `[batch, height, width, channels]`. -/
structure TensorShape4 where
  batch : ℕ
  height : ℕ
  width : ℕ
  channels : ℕ
deriving DecidableEq

/-- Shape semantics of `slim.conv2d` with `padding='SAME'` and stride 1
(miq.py lines 107 and 114): spatial dimensions are preserved for every
dilation `rate`; the channel count becomes the filter count. -/
def conv2d (s : TensorShape4) (numFilters : ℕ) (_rate : ℕ) : TensorShape4 :=
  { s with channels := numFilters }

/-- Shape semantics of `slim.max_pool2d` with a `[2, 2]` kernel and stride 2
(miq.py lines 110 and 117, default `VALID` padding): each spatial dimension
`n` becomes `(n - 2) / 2 + 1`. -/
def max_pool2d (s : TensorShape4) : TensorShape4 :=
  { s with height := (s.height - 2) / 2 + 1, width := (s.width - 2) / 2 + 1 }

/-- Shape semantics of `slim.flatten` (miq.py line 120): all but the batch
dimension collapse to `[batch, height * width * channels]`. -/
def flatten (s : TensorShape4) : ℕ × ℕ :=
  (s.batch, s.height * s.width * s.channels)

/-- Shape semantics of `slim.fully_connected` (miq.py lines 124 and 131) on
a 2-D input `[batch, features]`: the feature dimension becomes the number of
output units. -/
def fully_connected (s : ℕ × ℕ) (units : ℕ) : ℕ × ℕ :=
  (s.1, units)

/-- Shape semantics of `slim.dropout` (miq.py line 127): the shape is
unchanged whether or not training mode is active. -/
def dropout (s : ℕ × ℕ) (_is_training : Bool) : ℕ × ℕ :=
  s

/-- Shape-level embedding of `model` (miq.py lines 89-133): conv1 (32
filters), pool1, conv2 (64 filters, dilation `rate`), pool2, flatten, fc3
(1024 units), dropout, fc4 (`num_classes` units, no activation). -/
def model (images : TensorShape4) (num_classes : ℕ) (is_training : Bool)
    (rate : ℕ) : ℕ × ℕ :=
  fully_connected
    (dropout
      (fully_connected
        (flatten (max_pool2d (conv2d (max_pool2d (conv2d images 32 1)) 64 rate)))
        1024)
      is_training)
    num_classes

/-- `model_v1` (miq.py lines 79-81): dilated convolution, `rate = 2`. -/
def model_v1 (images : TensorShape4) (num_classes : ℕ) (is_training : Bool) :
    ℕ × ℕ :=
  model images num_classes is_training 2

/-- `model_v0` (miq.py lines 84-86): original model, `rate = 1`. -/
def model_v0 (images : TensorShape4) (num_classes : ℕ) (is_training : Bool) :
    ℕ × ℕ :=
  model images num_classes is_training 1

/-- Embedding of `miq_model` (miq.py lines 45-76) at the shape level:
dispatch on the integer `model_id`, raising `ValueError` (modelled as
`Except.error`) for any id other than 0 and 1. -/
def miq_model (images : TensorShape4) (num_classes : ℕ) (is_training : Bool)
    (model_id : ℤ) : Except String (ℕ × ℕ) :=
  if model_id = 0 then
    Except.ok (model_v0 images num_classes is_training)
  else if model_id = 1 then
    Except.ok (model_v1 images num_classes is_training)
  else
    Except.error "Unsupported model"

/-! ### Basic lemmas about `cumsum` and sums of lists -/

lemma cumsum_length (l : List ℚ) : (cumsum l).length = l.length := by
  induction l with
  | nil => rfl
  | cons x xs ih => simp [cumsum, ih]

lemma cumsum_getD (l : List ℚ) (k : ℕ) (hk : k < l.length) :
    (cumsum l).getD k 0 = (l.take (k + 1)).sum := by
  induction l generalizing k with
  | nil => simp at hk
  | cons x xs ih =>
    cases k with
    | zero => simp [cumsum]
    | succ k =>
      have hk' : k < xs.length := by simpa using hk
      have hk'' : k < (cumsum xs).length := by simpa [cumsum_length] using hk'
      simp only [cumsum, List.getD_cons_succ, List.take_succ_cons, List.sum_cons]
      rw [List.getD_eq_getElem _ _ (by simpa [cumsum_length] using hk'),
        List.getElem_map, ← List.getD_eq_getElem _ 0 hk'', ih k hk']

lemma sum_zipWith_eq_finset (f : ℚ → ℚ → ℚ) (A B : List ℚ)
    (h : A.length = B.length) :
    (List.zipWith f A B).sum =
      ∑ k ∈ Finset.range A.length, f (A.getD k 0) (B.getD k 0) := by
  induction A generalizing B with
  | nil => simp
  | cons a A ih =>
    cases B with
    | nil => simp at h
    | cons b B =>
      have h' : A.length = B.length := by simpa using h
      rw [List.zipWith_cons_cons, List.sum_cons, ih B h', List.length_cons,
        Finset.sum_range_succ']
      simp [add_comm]

/-- The central bridge: for equal-length vectors, `rpsVec` is the finite sum
over ranks of the squared difference of the cumulative sums. -/
lemma rpsVec_eq_sum (p t : List ℚ) (h : p.length = t.length) :
    rpsVec p t =
      ∑ k ∈ Finset.range p.length,
        ((p.take (k + 1)).sum - (t.take (k + 1)).sum) ^ 2 := by
  unfold rpsVec
  rw [sum_zipWith_eq_finset _ _ _ (by simp [cumsum_length, h])]
  rw [cumsum_length]
  refine Finset.sum_congr rfl fun k hk => ?_
  have hkp : k < p.length := Finset.mem_range.mp hk
  have hkt : k < t.length := h ▸ hkp
  rw [cumsum_getD p k hkp, cumsum_getD t k hkt]

lemma list_sum_eq_finset (l : List ℚ) :
    l.sum = ∑ k ∈ Finset.range l.length, l.getD k 0 := by
  induction l with
  | nil => simp
  | cons x xs ih =>
    rw [List.sum_cons, ih, List.length_cons, Finset.sum_range_succ']
    simp [add_comm]

lemma take_sum_eq_finset (l : List ℚ) (m : ℕ) (hm : m ≤ l.length) :
    (l.take m).sum = ∑ k ∈ Finset.range m, l.getD k 0 := by
  rw [list_sum_eq_finset (l.take m), List.length_take, min_eq_left hm]
  refine Finset.sum_congr rfl fun k hk => ?_
  have hk' : k < m := Finset.mem_range.mp hk
  rw [List.getD_eq_getElem _ _ (by simp [List.length_take]; omega),
    List.getElem_take, List.getD_eq_getElem _ 0 (by omega)]

lemma zipWith_sq_sum_nonneg :
    ∀ A B : List ℚ, 0 ≤ (List.zipWith (fun a b => (a - b) ^ 2) A B).sum
  | [], _ => by simp
  | _ :: _, [] => by simp
  | a :: A, b :: B => by
    rw [List.zipWith_cons_cons, List.sum_cons]
    have h1 : (0 : ℚ) ≤ (a - b) ^ 2 := sq_nonneg _
    have h2 := zipWith_sq_sum_nonneg A B
    linarith

lemma rpsVec_nonneg (p t : List ℚ) : 0 ≤ rpsVec p t :=
  zipWith_sq_sum_nonneg (cumsum p) (cumsum t)

lemma rpsVec_comm (p t : List ℚ) : rpsVec p t = rpsVec t p := by
  unfold rpsVec
  rw [List.zipWith_comm_of_comm]
  intro a b
  ring

lemma take_sum_nonneg (p : List ℚ) (h : ∀ x ∈ p, 0 ≤ x) (m : ℕ) :
    0 ≤ (p.take m).sum :=
  List.sum_nonneg fun x hx => h x (List.mem_of_mem_take hx)

lemma take_sum_le_sum (p : List ℚ) (h : ∀ x ∈ p, 0 ≤ x) (m : ℕ) :
    (p.take m).sum ≤ p.sum := by
  conv_rhs => rw [← List.take_append_drop m p]
  rw [List.sum_append]
  have hd : 0 ≤ (p.drop m).sum :=
    List.sum_nonneg fun x hx => h x (List.mem_of_mem_drop hx)
  linarith

lemma cumsum_inj : ∀ p t : List ℚ, cumsum p = cumsum t → p = t
  | [], [], _ => rfl
  | [], _ :: _, h => by simp [cumsum] at h
  | _ :: _, [], h => by simp [cumsum] at h
  | x :: xs, y :: ys, h => by
    simp only [cumsum, List.cons.injEq] at h
    obtain ⟨hx, hmap⟩ := h
    subst hx
    have hcs : cumsum xs = cumsum ys :=
      List.map_injective_iff.mpr (fun a b hab => by linarith [hab]) hmap
    rw [cumsum_inj xs ys hcs]

lemma cumsum_eq_iff (p t : List ℚ) (h : p.length = t.length) :
    cumsum p = cumsum t ↔
      ∀ k < p.length, (p.take (k + 1)).sum = (t.take (k + 1)).sum := by
  constructor
  · intro he k hk
    rw [← cumsum_getD p k hk, ← cumsum_getD t k (h ▸ hk), he]
  · intro hk
    refine List.ext_getElem (by simp [cumsum_length, h]) fun i h1 h2 => ?_
    rw [← List.getD_eq_getElem _ 0 h1, ← List.getD_eq_getElem _ 0 h2,
      cumsum_getD p i (by simpa [cumsum_length] using h1),
      cumsum_getD t i (by simpa [cumsum_length] using h2)]
    exact hk i (by simpa [cumsum_length] using h1)

lemma rpsVec_eq_zero_iff (p t : List ℚ) (h : p.length = t.length) :
    rpsVec p t = 0 ↔ cumsum p = cumsum t := by
  rw [rpsVec_eq_sum p t h, cumsum_eq_iff p t h]
  rw [Finset.sum_eq_zero_iff_of_nonneg fun k _ => sq_nonneg _]
  constructor
  · intro hz k hk
    have := hz k (Finset.mem_range.mpr hk)
    have hsub := pow_eq_zero_iff (n := 2) (by norm_num) |>.mp this
    linarith
  · intro he k hk
    rw [he k (Finset.mem_range.mp hk)]
    ring

lemma range_map_sum (n : ℕ) (f : ℕ → ℚ) :
    ((List.range n).map f).sum = ∑ k ∈ Finset.range n, f k := by
  induction n with
  | zero => simp
  | succ n ih => rw [List.range_succ]; simp [ih, Finset.sum_range_succ]

lemma oneHot_length (K i : ℕ) : (oneHot K i).length = K := by
  simp [oneHot]

lemma oneHot_take_sum (K i m : ℕ) :
    ((oneHot K i).take m).sum = if i < min m K then 1 else 0 := by
  unfold oneHot
  rw [← List.map_take, List.take_range, range_map_sum]
  rw [Finset.sum_ite_eq' (Finset.range (min m K)) i fun _ => (1 : ℚ)]
  simp [Finset.mem_range]

lemma reverse_take_sum (l : List ℚ) (m : ℕ) (hm : m ≤ l.length) :
    (l.reverse.take m).sum = l.sum - (l.take (l.length - m)).sum := by
  have hlen : (l.drop (l.length - m)).reverse.length = m := by
    simp only [List.length_reverse, List.length_drop]
    omega
  have htake : l.reverse.take m = (l.drop (l.length - m)).reverse := by
    conv_lhs => rw [← List.take_append_drop (l.length - m) l]
    rw [List.reverse_append, List.take_left' hlen]
  have hsum : (l.take (l.length - m)).sum + (l.drop (l.length - m)).sum = l.sum := by
    rw [← List.sum_append, List.take_append_drop]
  rw [htake, List.sum_reverse]
  linarith

lemma rps_oneHot_le (K i j : ℕ) (hj : j < K) (hij : i ≤ j) :
    rpsVec (oneHot K i) (oneHot K j) = ((j - i : ℕ) : ℚ) := by
  have hlen : (oneHot K i).length = (oneHot K j).length := by
    simp [oneHot_length]
  rw [rpsVec_eq_sum _ _ hlen, oneHot_length]
  have hterm : ∀ k ∈ Finset.range K,
      (((oneHot K i).take (k + 1)).sum - ((oneHot K j).take (k + 1)).sum) ^ 2
        = if k ∈ Finset.Ico i j then (1 : ℚ) else 0 := by
    intro k hk
    have hk' : k < K := Finset.mem_range.mp hk
    rw [oneHot_take_sum, oneHot_take_sum]
    have hmin : min (k + 1) K = k + 1 := by omega
    rw [hmin]
    simp only [Finset.mem_Ico]
    by_cases h1 : i < k + 1 <;> by_cases h2 : j < k + 1
    · rw [if_pos h1, if_pos h2, if_neg (by omega)]; norm_num
    · rw [if_pos h1, if_neg h2, if_pos (by omega)]; norm_num
    · exact (h1 (by omega)).elim
    · rw [if_neg h1, if_neg h2, if_neg (by omega)]; norm_num
  rw [Finset.sum_congr rfl hterm, Finset.sum_ite_mem]
  have hsub : Finset.range K ∩ Finset.Ico i j = Finset.Ico i j :=
    Finset.inter_eq_right.mpr fun x hx =>
      Finset.mem_range.mpr ((Finset.mem_Ico.mp hx).2.trans hj)
  rw [hsub, Finset.sum_const, Nat.card_Ico, nsmul_eq_mul, mul_one]

lemma rpsVec_oneHot (p : List ℚ) (K i : ℕ) (hl : p.length = K) :
    rpsVec p (oneHot K i) = ∑ k ∈ Finset.range K,
      ((p.take (k + 1)).sum - if i ≤ k then 1 else 0) ^ 2 := by
  rw [rpsVec_eq_sum p _ (by simp [oneHot_length, hl]), hl]
  refine Finset.sum_congr rfl fun k hk => ?_
  have hk' : k < K := Finset.mem_range.mp hk
  rw [oneHot_take_sum]
  have hmin : min (k + 1) K = k + 1 := by omega
  rw [hmin]
  have hif : (if i < k + 1 then (1 : ℚ) else 0) = if i ≤ k then 1 else 0 := by
    simp [Nat.lt_succ_iff]
  rw [hif]

lemma expectedRPS_eq (p q : List ℚ) (hl : p.length = q.length)
    (hq1 : q.sum = 1) :
    expectedRPS p q = ∑ k ∈ Finset.range q.length,
      ((p.take (k + 1)).sum ^ 2
        - 2 * (p.take (k + 1)).sum * (q.take (k + 1)).sum
        + (q.take (k + 1)).sum) := by
  unfold expectedRPS
  have h1 : ∀ i ∈ Finset.range q.length,
      q.getD i 0 * rpsVec p (oneHot q.length i) =
        ∑ k ∈ Finset.range q.length,
          q.getD i 0 * ((p.take (k + 1)).sum - if i ≤ k then 1 else 0) ^ 2 := by
    intro i _
    rw [rpsVec_oneHot p q.length i hl, Finset.mul_sum]
  rw [Finset.sum_congr rfl h1, Finset.sum_comm]
  refine Finset.sum_congr rfl fun k hk => ?_
  have hk' : k < q.length := Finset.mem_range.mp hk
  have hexp : ∀ i ∈ Finset.range q.length,
      q.getD i 0 * ((p.take (k + 1)).sum - if i ≤ k then 1 else 0) ^ 2 =
        q.getD i 0 * (p.take (k + 1)).sum ^ 2
          - 2 * (p.take (k + 1)).sum * (if i ≤ k then q.getD i 0 else 0)
          + (if i ≤ k then q.getD i 0 else 0) := by
    intro i _
    by_cases hik : i ≤ k
    · simp only [if_pos hik]; ring
    · simp only [if_neg hik]; ring
  rw [Finset.sum_congr rfl hexp, Finset.sum_add_distrib, Finset.sum_sub_distrib]
  have hQ : ∑ i ∈ Finset.range q.length, (if i ≤ k then q.getD i 0 else 0)
      = (q.take (k + 1)).sum := by
    have hsub : ∀ i ∈ Finset.range q.length,
        (if i ≤ k then q.getD i 0 else 0) =
          (if i ∈ Finset.range (k + 1) then q.getD i 0 else 0) := by
      intro i _
      simp [Finset.mem_range, Nat.lt_succ_iff]
    rw [Finset.sum_congr rfl hsub, Finset.sum_ite_mem]
    have hint : Finset.range q.length ∩ Finset.range (k + 1) =
        Finset.range (k + 1) :=
      Finset.inter_eq_right.mpr (Finset.range_subset.mpr (by omega))
    rw [hint, ← take_sum_eq_finset q (k + 1) (by omega)]
  have hsum1 : ∑ i ∈ Finset.range q.length, q.getD i 0 * (p.take (k + 1)).sum ^ 2
      = (p.take (k + 1)).sum ^ 2 := by
    rw [← Finset.sum_mul, ← list_sum_eq_finset, hq1, one_mul]
  have hsum2 : ∑ i ∈ Finset.range q.length,
      2 * (p.take (k + 1)).sum * (if i ≤ k then q.getD i 0 else 0)
        = 2 * (p.take (k + 1)).sum * (q.take (k + 1)).sum := by
    rw [← Finset.mul_sum, hQ]
  rw [hsum1, hsum2, hQ]

lemma expectedRPS_sub (p q : List ℚ) (hl : p.length = q.length)
    (hq1 : q.sum = 1) :
    expectedRPS p q - expectedRPS q q = rpsVec p q := by
  rw [expectedRPS_eq p q hl hq1, expectedRPS_eq q q rfl hq1,
    rpsVec_eq_sum p q hl, hl, ← Finset.sum_sub_distrib]
  exact Finset.sum_congr rfl fun k _ => by ring

lemma getD_zipWith_rpsVec (p t : List (List ℚ)) (i : ℕ)
    (hip : i < p.length) (hit : i < t.length) :
    (List.zipWith rpsVec p t).getD i 0 = rpsVec (p.getD i []) (t.getD i []) := by
  rw [List.getD_eq_getElem _ _ (by simp [List.length_zipWith]; omega),
    List.getElem_zipWith, List.getD_eq_getElem _ _ hip,
    List.getD_eq_getElem _ _ hit]

lemma row_length_eq {p t : List (List ℚ)}
    (hsh : p.map List.length = t.map List.length) (i : ℕ) (hip : i < p.length) :
    (p.getD i []).length = (t.getD i []).length := by
  have hlen : p.length = t.length := by simpa using congrArg List.length hsh
  have hit : i < t.length := hlen ▸ hip
  have h1 : (p.map List.length).getD i 0 = (t.map List.length).getD i 0 := by
    rw [hsh]
  rw [List.getD_eq_getElem _ _ (by simpa using hip),
    List.getD_eq_getElem _ _ (by simpa using hit),
    List.getElem_map, List.getElem_map] at h1
  rw [List.getD_eq_getElem _ _ hip, List.getD_eq_getElem _ _ hit]
  exact h1

/-- C1: on every batch accepted by the shape check, `ranked_probability_score`
returns one scalar per remaining batch index, equal to
`∑ k, (CDF_pred(k) − CDF_target(k))²` where each CDF value is the sum of the
first `k` entries along the class dimension. -/
theorem rps_per_batch_formula (p t : List (List ℚ)) (r : List ℚ)
    (h : ranked_probability_score p t = Except.ok r) :
    r.length = p.length ∧ ∀ i, i < p.length →
      r.getD i 0 = ∑ k ∈ Finset.range (p.getD i []).length,
        (((p.getD i []).take (k + 1)).sum -
          ((t.getD i []).take (k + 1)).sum) ^ 2 := by
  unfold ranked_probability_score at h
  by_cases hsh : p.map List.length = t.map List.length
  · rw [if_pos hsh] at h
    injection h with h
    subst h
    have hlen : p.length = t.length := by simpa using congrArg List.length hsh
    refine ⟨by simp [List.length_zipWith, hlen], fun i hip => ?_⟩
    rw [getD_zipWith_rpsVec p t i hip (hlen ▸ hip),
      rpsVec_eq_sum _ _ (row_length_eq hsh i hip)]
  · rw [if_neg hsh] at h
    cases h

/-- Witness for C1 at K = 3, prediction `[1,0,0]`, target `[0,0,1]`:
the score is `Except.ok [2]`, in particular the single batch entry is 2. -/
theorem rps_per_batch_formula_witness :
    ranked_probability_score [[1, 0, 0]] [[0, 0, 1]] = Except.ok [2] ∧
      (([2] : List ℚ).length = ([[(1 : ℚ), 0, 0]] : List (List ℚ)).length ∧
        ∀ i, i < ([[(1 : ℚ), 0, 0]] : List (List ℚ)).length →
          ([2] : List ℚ).getD i 0 =
            ∑ k ∈ Finset.range
                (([[(1 : ℚ), 0, 0]] : List (List ℚ)).getD i []).length,
              (((([[(1 : ℚ), 0, 0]] : List (List ℚ)).getD i []).take (k + 1)).sum -
                ((([[(0 : ℚ), 0, 1]] : List (List ℚ)).getD i []).take (k + 1)).sum) ^ 2) :=
  ⟨by norm_num [ranked_probability_score, rpsVec, cumsum],
    rps_per_batch_formula [[1, 0, 0]] [[0, 0, 1]] [2]
      (by norm_num [ranked_probability_score, rpsVec, cumsum])⟩

/-- C2: for valid probability distributions of equal length `K`, the ranked
probability score lies in `[0, K − 1]`, vanishes exactly when prediction and
target agree at every cumulative rank, and in particular `RPS(p, p) = 0`. -/
theorem rps_range_and_zero_iff (p t : List ℚ) (hp : IsDistrib p)
    (ht : IsDistrib t) (hl : p.length = t.length) :
    0 ≤ rpsVec p t ∧ rpsVec p t ≤ (p.length : ℚ) - 1 ∧
      (rpsVec p t = 0 ↔ cumsum p = cumsum t) ∧ rpsVec p p = 0 := by
  obtain ⟨hpn, hps⟩ := hp
  obtain ⟨htn, hts⟩ := ht
  have hK : 1 ≤ p.length := by
    by_contra hc
    have hnil : p = [] := by
      cases p with
      | nil => rfl
      | cons x xs => simp at hc
    rw [hnil] at hps
    simp at hps
  refine ⟨rpsVec_nonneg p t, ?_, rpsVec_eq_zero_iff p t hl,
    (rpsVec_eq_zero_iff p p rfl).mpr rfl⟩
  obtain ⟨K, hKe⟩ : ∃ K, p.length = K + 1 := ⟨p.length - 1, by omega⟩
  rw [rpsVec_eq_sum p t hl, hKe, Finset.sum_range_succ]
  have h1 : (p.take (K + 1)).sum = 1 := by rw [← hKe, List.take_length, hps]
  have h2 : (t.take (K + 1)).sum = 1 := by
    rw [show K + 1 = t.length by omega, List.take_length, hts]
  have hlast : ((p.take (K + 1)).sum - (t.take (K + 1)).sum) ^ 2 = 0 := by
    rw [h1, h2]; ring
  rw [hlast, add_zero]
  have hbound : ∀ k ∈ Finset.range K,
      ((p.take (k + 1)).sum - (t.take (k + 1)).sum) ^ 2 ≤ 1 := by
    intro k _
    have hp0 := take_sum_nonneg p hpn (k + 1)
    have hp1 : (p.take (k + 1)).sum ≤ 1 := hps ▸ take_sum_le_sum p hpn (k + 1)
    have ht0 := take_sum_nonneg t htn (k + 1)
    have ht1 : (t.take (k + 1)).sum ≤ 1 := hts ▸ take_sum_le_sum t htn (k + 1)
    nlinarith
  calc (∑ k ∈ Finset.range K, ((p.take (k + 1)).sum - (t.take (k + 1)).sum) ^ 2)
      ≤ ∑ _k ∈ Finset.range K, (1 : ℚ) := Finset.sum_le_sum hbound
    _ = K := by simp
    _ = ((K + 1 : ℕ) : ℚ) - 1 := by push_cast; ring

/-- Witness for C2 at `p = [1/2, 1/2]`, `t = [1/4, 3/4]`. -/
theorem rps_range_and_zero_iff_witness :
    IsDistrib [(1 : ℚ)/2, 1/2] ∧ IsDistrib [(1 : ℚ)/4, 3/4] ∧
      (0 ≤ rpsVec [(1 : ℚ)/2, 1/2] [(1 : ℚ)/4, 3/4] ∧
        rpsVec [(1 : ℚ)/2, 1/2] [(1 : ℚ)/4, 3/4] ≤
          (([(1 : ℚ)/2, 1/2] : List ℚ).length : ℚ) - 1 ∧
        (rpsVec [(1 : ℚ)/2, 1/2] [(1 : ℚ)/4, 3/4] = 0 ↔
          cumsum [(1 : ℚ)/2, 1/2] = cumsum [(1 : ℚ)/4, 3/4]) ∧
        rpsVec [(1 : ℚ)/2, 1/2] [(1 : ℚ)/2, 1/2] = 0) :=
  ⟨by norm_num [IsDistrib], by norm_num [IsDistrib],
    rps_range_and_zero_iff [(1 : ℚ)/2, 1/2] [(1 : ℚ)/4, 3/4]
      (by norm_num [IsDistrib]) (by norm_num [IsDistrib]) rfl⟩

/-- C3: for one-hot prediction and target over `K` ranked classes whose hot
indices differ by distance `d`, the ranked probability score is exactly `d`. -/
theorem rps_oneHot_distance (K i j : ℕ) (hi : i < K) (hj : j < K) :
    rpsVec (oneHot K i) (oneHot K j) = ((max i j - min i j : ℕ) : ℚ) := by
  rcases le_total i j with hij | hij
  · rw [rps_oneHot_le K i j hj hij, Nat.max_eq_right hij, Nat.min_eq_left hij]
  · rw [rpsVec_comm, rps_oneHot_le K j i hi hij, Nat.max_eq_left hij,
      Nat.min_eq_right hij]

/-- Witness for C3 at `K = 3`, hot indices 0 and 2, distance 2. -/
theorem rps_oneHot_distance_witness :
    rpsVec (oneHot 3 0) (oneHot 3 2) = ((max 0 2 - min 0 2 : ℕ) : ℚ) :=
  rps_oneHot_distance 3 0 2 (by omega) (by omega)

/-- C4: the ranked probability score is a strictly proper scoring rule: the
expected score `∑ i, q_i · RPS(p, onehot_i)` under the true generating
distribution `q` is minimized exactly when the prediction `p` equals `q`. -/
theorem rps_strictly_proper (p q : List ℚ) (_hp : IsDistrib p)
    (hq : IsDistrib q) (hl : p.length = q.length) :
    expectedRPS q q ≤ expectedRPS p q ∧
      (expectedRPS p q = expectedRPS q q ↔ p = q) := by
  have hsub := expectedRPS_sub p q hl hq.2
  have hnn := rpsVec_nonneg p q
  refine ⟨by linarith, ?_, ?_⟩
  · intro he
    have hz : rpsVec p q = 0 := by linarith
    exact cumsum_inj p q ((rpsVec_eq_zero_iff p q hl).mp hz)
  · intro he
    rw [he]

/-- Witness for C4 at `p = [1/2, 1/2]`, `q = [1/3, 2/3]`. -/
theorem rps_strictly_proper_witness :
    IsDistrib [(1 : ℚ)/2, 1/2] ∧ IsDistrib [(1 : ℚ)/3, 2/3] ∧
      (expectedRPS [(1 : ℚ)/3, 2/3] [(1 : ℚ)/3, 2/3] ≤
          expectedRPS [(1 : ℚ)/2, 1/2] [(1 : ℚ)/3, 2/3] ∧
        (expectedRPS [(1 : ℚ)/2, 1/2] [(1 : ℚ)/3, 2/3] =
            expectedRPS [(1 : ℚ)/3, 2/3] [(1 : ℚ)/3, 2/3] ↔
          [(1 : ℚ)/2, 1/2] = [(1 : ℚ)/3, 2/3])) :=
  ⟨by norm_num [IsDistrib], by norm_num [IsDistrib],
    rps_strictly_proper [(1 : ℚ)/2, 1/2] [(1 : ℚ)/3, 2/3]
      (by norm_num [IsDistrib]) (by norm_num [IsDistrib]) rfl⟩

/-- C5: incompatible prediction/target shapes make
`ranked_probability_score` fail with the validation error and produce no
result, while compatible shapes never raise this error. -/
theorem rps_shape_validation (p t : List (List ℚ)) :
    (p.map List.length ≠ t.map List.length →
      ranked_probability_score p t =
        Except.error "predictions and targets must have compatible shapes") ∧
    (p.map List.length = t.map List.length →
      ∃ r, ranked_probability_score p t = Except.ok r) := by
  unfold ranked_probability_score
  constructor
  · intro hne
    rw [if_neg hne]
  · intro heq
    rw [if_pos heq]
    exact ⟨_, rfl⟩

/-- Witness for C5: K = 3 predictions against K = 4 targets fail with the
validation error; the matching K = 3 pair succeeds. -/
theorem rps_shape_validation_witness :
    ([[(1 : ℚ), 0, 0]] : List (List ℚ)).map List.length ≠
        ([[(0 : ℚ), 0, 0, 1]] : List (List ℚ)).map List.length ∧
      ranked_probability_score [[1, 0, 0]] [[0, 0, 0, 1]] =
        Except.error "predictions and targets must have compatible shapes" ∧
      ∃ r, ranked_probability_score [[1, 0, 0]] [[0, 0, 1]] = Except.ok r :=
  ⟨by decide,
    (rps_shape_validation [[1, 0, 0]] [[0, 0, 0, 1]]).1 (by decide),
    (rps_shape_validation [[1, 0, 0]] [[0, 0, 1]]).2 (by decide)⟩

/-- C6: model ids 0 and 1 both produce logits of shape
`[batchSize, numClasses]` — the two stacks differ only in the second
convolution's dilation rate, which does not change the shape — and every
other integer model id fails with the unsupported-model error. -/
theorem miq_model_dispatch (images : TensorShape4) (num_classes : ℕ)
    (is_training : Bool) :
    miq_model images num_classes is_training 0 =
      Except.ok (images.batch, num_classes) ∧
    miq_model images num_classes is_training 1 =
      Except.ok (images.batch, num_classes) ∧
    ∀ model_id : ℤ, model_id ≠ 0 → model_id ≠ 1 →
      miq_model images num_classes is_training model_id =
        Except.error "Unsupported model" := by
  refine ⟨rfl, rfl, fun model_id h0 h1 => ?_⟩
  unfold miq_model
  rw [if_neg h0, if_neg h1]

/-- Witness for C6 at a batch of four 84×84 single-channel patches, 11
classes: ids 0 and 1 give shape `[4, 11]`; id 2 fails. -/
theorem miq_model_dispatch_witness :
    miq_model ⟨4, 84, 84, 1⟩ 11 false 0 = Except.ok (4, 11) ∧
    miq_model ⟨4, 84, 84, 1⟩ 11 false 1 = Except.ok (4, 11) ∧
    miq_model ⟨4, 84, 84, 1⟩ 11 false 2 = Except.error "Unsupported model" :=
  ⟨(miq_model_dispatch ⟨4, 84, 84, 1⟩ 11 false).1,
    (miq_model_dispatch ⟨4, 84, 84, 1⟩ 11 false).2.1,
    (miq_model_dispatch ⟨4, 84, 84, 1⟩ 11 false).2.2 2 (by decide) (by decide)⟩

/-- C7: with `use_rank_loss = true`, `add_loss` registers the mean over the
batch of the ranked probability score of `softmax(logits)` against the
one-hot labels along dimension 1; with `use_rank_loss = false` it registers
the mean softmax cross-entropy; the flag selects exactly between the two. -/
theorem add_loss_selects (e lg : ℚ → ℚ) (logits labels : List (List ℚ))
    (hsh : (logits.map (softmax e)).map List.length = labels.map List.length) :
    add_loss e lg logits labels true =
      Except.ok (mean (List.zipWith (fun lo la => rpsVec (softmax e lo) la)
        logits labels)) ∧
    add_loss e lg logits labels false =
      Except.ok (mean (List.zipWith (softmax_cross_entropy e lg)
        logits labels)) := by
  constructor
  · show (ranked_probability_score (logits.map (softmax e)) labels).map mean = _
    unfold ranked_probability_score
    rw [if_pos hsh]
    rw [List.zipWith_map_left]
    rfl
  · rfl

/-- Witness for C7 with identity `exp`/`log` stand-ins on a one-row batch. -/
theorem add_loss_selects_witness :
    (([[(0 : ℚ), 0]] : List (List ℚ)).map (softmax fun x => x)).map List.length =
        ([[(1 : ℚ), 0]] : List (List ℚ)).map List.length ∧
      add_loss (fun x => x) (fun x => x) [[0, 0]] [[1, 0]] true =
        Except.ok (mean (List.zipWith
          (fun lo la => rpsVec (softmax (fun x => x) lo) la)
          [[0, 0]] [[1, 0]])) ∧
      add_loss (fun x => x) (fun x => x) [[0, 0]] [[1, 0]] false =
        Except.ok (mean (List.zipWith
          (softmax_cross_entropy (fun x => x) (fun x => x))
          [[0, 0]] [[1, 0]])) :=
  ⟨by norm_num [softmax],
    (add_loss_selects (fun x => x) (fun x => x) [[0, 0]] [[1, 0]]
      (by norm_num [softmax])).1,
    (add_loss_selects (fun x => x) (fun x => x) [[0, 0]] [[1, 0]]
      (by norm_num [softmax])).2⟩

/-- C8: reversing the class order of both inputs simultaneously leaves the
ranked probability score unchanged, given equal shapes and equal totals. -/
theorem rps_reverse_symmetric (p t : List ℚ) (hl : p.length = t.length)
    (hs : p.sum = t.sum) :
    rpsVec p.reverse t.reverse = rpsVec p t := by
  rcases Nat.eq_zero_or_pos p.length with h0 | hpos
  · have hp : p = [] := List.length_eq_zero.mp h0
    have ht : t = [] := List.length_eq_zero.mp (by omega)
    subst hp
    subst ht
    rfl
  · obtain ⟨K, hK⟩ : ∃ K, p.length = K + 1 := ⟨p.length - 1, by omega⟩
    rw [rpsVec_eq_sum p.reverse t.reverse (by simpa using hl),
      rpsVec_eq_sum p t hl, List.length_reverse]
    have hstep : ∀ k ∈ Finset.range p.length,
        ((p.reverse.take (k + 1)).sum - (t.reverse.take (k + 1)).sum) ^ 2 =
          (fun m => ((p.take m).sum - (t.take m).sum) ^ 2)
            (p.length - 1 - k) := by
      intro k hk
      have hk' : k < p.length := Finset.mem_range.mp hk
      rw [reverse_take_sum p (k + 1) (by omega),
        reverse_take_sum t (k + 1) (by omega)]
      have e1 : p.length - (k + 1) = p.length - 1 - k := by omega
      have e2 : t.length - (k + 1) = p.length - 1 - k := by omega
      rw [e1, e2]
      simp only []
      rw [hs]
      ring
    have hrefl := Finset.sum_range_reflect
      (fun m => ((p.take m).sum - (t.take m).sum) ^ 2) p.length
    rw [Finset.sum_congr rfl hstep, hrefl]
    rw [hK, Finset.sum_range_succ', Finset.sum_range_succ]
    have hf0 : ((p.take 0).sum - (t.take 0).sum) ^ 2 = 0 := by simp
    have hfK : ((p.take (K + 1)).sum - (t.take (K + 1)).sum) ^ 2 = 0 := by
      have h1 : (p.take (K + 1)).sum = p.sum := by rw [← hK, List.take_length]
      have h2 : (t.take (K + 1)).sum = t.sum := by
        rw [show K + 1 = t.length by omega, List.take_length]
      rw [h1, h2, hs]
      ring
    rw [hf0, hfK, add_zero]

/-- Witness for C8 at `p = [1, 2, 3]`, `t = [3, 2, 1]` (equal totals). -/
theorem rps_reverse_symmetric_witness :
    ([(1 : ℚ), 2, 3] : List ℚ).length = ([(3 : ℚ), 2, 1] : List ℚ).length ∧
      ([(1 : ℚ), 2, 3] : List ℚ).sum = ([(3 : ℚ), 2, 1] : List ℚ).sum ∧
      rpsVec ([(1 : ℚ), 2, 3] : List ℚ).reverse
          ([(3 : ℚ), 2, 1] : List ℚ).reverse =
        rpsVec [(1 : ℚ), 2, 3] [(3 : ℚ), 2, 1] :=
  ⟨rfl, by norm_num,
    rps_reverse_symmetric [(1 : ℚ), 2, 3] [(3 : ℚ), 2, 1] rfl (by norm_num)⟩

/-- C9: with integer targets and rational predictions, the targets are cast
to the predictions' precision before the subtraction, so the result equals
the score computed on the pre-converted targets. -/
theorem rps_int_target_coercion (p : List (List ℚ)) (t : List (List ℤ)) :
    ranked_probability_score_intTargets p t =
      ranked_probability_score p (castTargets t) := by
  unfold ranked_probability_score_intTargets ranked_probability_score
  have hsh : (castTargets t).map List.length = t.map List.length := by
    simp [castTargets, List.map_map, Function.comp]
  rw [hsh]

/-- C10: even on inputs that are not probability distributions, the ranked
probability score is non-negative (a sum of squared cumulative differences),
while the `K − 1` upper bound can fail without the distribution
precondition: for `K = 1`, `p = [2]`, `t = [0]` the score is `4 > 0`. -/
theorem rps_nonneg_without_distribution :
    (∀ p t : List ℚ, p.length = t.length → 0 ≤ rpsVec p t) ∧
      rpsVec [2] [0] = 4 ∧
      (([(2 : ℚ)] : List ℚ).length : ℚ) - 1 < rpsVec [2] [0] := by
  refine ⟨fun p t _ => rpsVec_nonneg p t, ?_, ?_⟩ <;>
    norm_num [rpsVec, cumsum]

/-- Witness for C10 at the non-distribution pair `p = [-1, 5]`, `t = [0, 2]`. -/
theorem rps_nonneg_without_distribution_witness :
    ([(-1 : ℚ), 5] : List ℚ).length = ([(0 : ℚ), 2] : List ℚ).length ∧
      0 ≤ rpsVec [(-1 : ℚ), 5] [(0 : ℚ), 2] :=
  ⟨rfl, rps_nonneg_without_distribution.1 [(-1 : ℚ), 5] [(0 : ℚ), 2] rfl⟩

end Miq
